import Mathlib

/-!
Verification development for the HeuristaDocs repository
(src/hdocs.py and src/api_doc_tool.py).

The Python code is shallowly embedded: Python strings become `String` or
`List Char`, Python dicts become insertion-ordered association lists
(`List (String × β)`) with the exact Python semantics (updating an existing
key keeps its position and replaces its value; a fresh key is appended),
and each relevant Python function becomes a Lean definition translated
line by line from the source.
-/

namespace HDocs

/-! ## Python string primitives -/

/-- Fuel-indexed worker for `removeAll`; structural recursion on the fuel
so that the kernel can evaluate it.  With `fuel ≥ l.length` it scans `l`
left to right and deletes each non-overlapping occurrence of `pat`. -/
def removeAllFuel (pat : List Char) : Nat → List Char → List Char
  | _, [] => []
  | 0, l => l
  | fuel + 1, c :: rest =>
    if pat ≠ [] ∧ pat.isPrefixOf (c :: rest) then
      removeAllFuel pat fuel (rest.drop (pat.length - 1))
    else
      c :: removeAllFuel pat fuel rest

/-- Python `str.replace(pat, "")` on character lists: scan left to right,
delete each non-overlapping occurrence of `pat`.  Matches CPython's
semantics for a non-empty pattern. -/
def removeAll (pat : List Char) (l : List Char) : List Char :=
  removeAllFuel pat l.length l

/-- Python `str.strip()` on character lists: drop whitespace from both ends. -/
def pyStrip (l : List Char) : List Char :=
  ((l.dropWhile Char.isWhitespace).reverse.dropWhile Char.isWhitespace).reverse

/-- `"const"` as a character list. -/
def constPat : List Char := ['c', 'o', 'n', 's', 't']

/-- The canonicalization performed inline at src/hdocs.py:120 (and 124, 132,
136, 141): `.replace("*","").replace("&","").replace("const","").strip()`,
on character lists. -/
def canonL (l : List Char) : List Char :=
  pyStrip (removeAll constPat (removeAll ['&'] (removeAll ['*'] l)))

/-- The canonicalization on `String`s. -/
def canon (s : String) : String :=
  ⟨canonL s.data⟩

/-- Does `pat` occur as a contiguous substring of `l`? -/
def containsSub (pat : List Char) : List Char → Bool
  | [] => pat.isEmpty
  | c :: rest => pat.isPrefixOf (c :: rest) || containsSub pat rest

/-! ## Python dict model

A Python dict is modelled as an insertion-ordered association list. -/

/-- Python `d[k] = v`: if the key is present, its value is replaced in
place (position preserved); otherwise the pair is appended at the end. -/
def dictInsert {β : Type} (m : List (String × β)) (k : String) (v : β) :
    List (String × β) :=
  if m.any (fun p => decide (p.1 = k)) then
    m.map (fun p => if p.1 = k then (k, v) else p)
  else
    m ++ [(k, v)]

/-- Python `d[k]` / `k in d`: look the key up (first — and, for dicts built
with `dictInsert`, only — entry with that key). -/
def lookupD {β : Type} (m : List (String × β)) (k : String) : Option β :=
  (m.find? (fun p => decide (p.1 = k))).map Prod.snd

/-- Build a dict from a list of items, keyed by `key`, valued by `val`,
later items overriding earlier ones (Python dict-comprehension semantics). -/
def pyDictBy {α β : Type} (key : α → String) (val : α → β)
    (m : List (String × β)) (xs : List α) : List (String × β) :=
  xs.foldl (fun acc x => dictInsert acc (key x) (val x)) m

/-! ## hdocs.py data model

One record of the `symbols` list of `extract_symbols_from_file`
(src/hdocs.py:84-111).  The Python dicts carry kind-specific keys; absent
keys read through `.get(key, default)` become the default values below.
The Python key `"type"` is the field `type`. -/

structure Symbol where
  type : String := ""
  name : String := ""
  return_type : String := ""
  parameters : List (String × String) := []
  type_references : List String := []
  body : String := ""
  enumerators : List String := []
  fields : List (String × String) := []
  methods : List String := []
  underlying : String := ""
deriving DecidableEq

/-- The `defs` list built at src/hdocs.py:151-162: the target symbol, then
every resolving `type_references` entry, then every resolving raw field
type, then (for a typedef) the resolving raw underlying type. -/
def buildDefs (symbol : Symbol) (symbol_map : List (String × Symbol)) :
    List Symbol :=
  [symbol]
    ++ symbol.type_references.filterMap (fun ref => lookupD symbol_map ref)
    ++ symbol.fields.filterMap (fun field => lookupD symbol_map field.2)
    ++ (if symbol.type = "typedef" then (lookupD symbol_map symbol.underlying).toList
        else [])

/-- `list({d["name"]: d for d in defs}.values())` (src/hdocs.py:163):
deduplicate by name with Python dict-comprehension semantics — the first
occurrence of a name fixes its position, the last occurrence supplies the
retained value. -/
def uniqueDefs (defs : List Symbol) : List Symbol :=
  (pyDictBy Symbol.name id [] defs).map Prod.snd

/-- The deduplicated context-definitions list assembled by
`build_prompt_for_symbol` (src/hdocs.py:150-163); the prompt text built
from it afterwards is out of scope of the claims. -/
def build_prompt_for_symbol (symbol : Symbol)
    (symbol_map : List (String × Symbol)) : List Symbol :=
  uniqueDefs (buildDefs symbol symbol_map)

/-- One iteration of the merge loop of `main` (src/hdocs.py:331-334):
`key = (s["type"], s["name"]); if key not in unique: unique[key] = s`.
Only fresh keys are inserted, so the value dict is a plain append. -/
def mergeStep (unique : List Symbol) (s : Symbol) : List Symbol :=
  if unique.any (fun t => decide (t.type = s.type ∧ t.name = s.name)) then unique
  else unique ++ [s]

/-- The cross-unit merge of `main` (src/hdocs.py:329-335): a dict keyed by
`(type, name)`, first occurrence wins, later same-key symbols dropped;
`list(unique.values())` is the insertion-ordered value list. -/
def mergeSymbols (symbols : List Symbol) : List Symbol :=
  symbols.foldl mergeStep []

/-- `symbol_map = {sym["name"]: sym for sym in symbols}` (src/hdocs.py:338):
keyed by name alone, last occurrence wins. -/
def symbolMapOf (symbols : List Symbol) : List (String × Symbol) :=
  pyDictBy Symbol.name id [] symbols

/-! ## hdocs.py scanning -/

/-- `extract_symbols_from_file` control flow (src/hdocs.py:25-29): the
parse outcome of a unit is `none` when `index.parse` raises (the `except`
branch prints and returns `[]`) and `some tu` otherwise; the rest of the
function is abstracted as `extract` applied to the parsed unit. -/
def extract_symbols_from_file {α : Type} (parsed : Option α)
    (extract : α → List Symbol) : List Symbol :=
  match parsed with
  | none => []
  | some tu => extract tu

/-- `scan_directory` (src/hdocs.py:301-312): walk the units in order and
extend `all_symbols` with each unit's extraction result. -/
def scan_directory {α : Type} (units : List (Option α))
    (extract : α → List Symbol) : List Symbol :=
  units.foldl (fun all_symbols u => all_symbols ++ extract_symbols_from_file u extract) []

/-! ## api_doc_tool.py (lexical mode) -/

/-- The cursor kinds tested at src/api_doc_tool.py:26; `OTHER_KIND` stands
for every remaining clang cursor kind. -/
inductive CursorKind where
  | FUNCTION_DECL
  | STRUCT_DECL
  | TYPEDEF_DECL
  | ENUM_DECL
  | MACRO_DEFINITION
  | OTHER_KIND
deriving DecidableEq

/-- `cursor.kind.name.lower()` (src/api_doc_tool.py:29). -/
def kindName : CursorKind → String
  | CursorKind.FUNCTION_DECL => "function_decl"
  | CursorKind.STRUCT_DECL => "struct_decl"
  | CursorKind.TYPEDEF_DECL => "typedef_decl"
  | CursorKind.ENUM_DECL => "enum_decl"
  | CursorKind.MACRO_DEFINITION => "macro_definition"
  | CursorKind.OTHER_KIND => "other"

/-- A top-level cursor of a parsed translation unit, with the attributes
src/api_doc_tool.py:24-33 reads: kind, spelling, location file and line. -/
structure Cursor where
  kind : CursorKind
  spelling : String
  locFile : Option String
  line : Nat
deriving DecidableEq

/-- One input file of `extract_symbols`: its path (the `filepath` loop
variable) and the top-level cursors of its parsed unit
(`tu.cursor.get_children()`). -/
structure LexFile where
  path : String
  cursors : List Cursor
deriving DecidableEq

/-- One value of the global `symbol_cache` (src/api_doc_tool.py:28-32). -/
structure CacheEntry where
  kind : String
  file : String
  line : Nat
deriving DecidableEq

/-- `std_types` (src/api_doc_tool.py:14-17). -/
def std_types : List String :=
  ["size_t", "intptr_t", "uintptr_t", "int8_t", "int16_t", "int32_t", "int64_t",
   "uint8_t", "uint16_t", "uint32_t", "uint64_t"]

/-- The nested `if` conditions of src/api_doc_tool.py:25-27 on one cursor:
a real location outside `/usr`, a recognized kind, a non-empty spelling
not in `std_types`. -/
def lexQualifies (c : Cursor) : Bool :=
  (match c.locFile with
   | some p => !(p.startsWith "/usr")
   | none => false)
  && (c.kind ∈ [CursorKind.FUNCTION_DECL, CursorKind.STRUCT_DECL,
        CursorKind.TYPEDEF_DECL, CursorKind.ENUM_DECL,
        CursorKind.MACRO_DEFINITION] : Bool)
  && (c.spelling ≠ "" && c.spelling ∉ std_types : Bool)

/-- The cache value stored for a qualifying cursor of file `path`
(src/api_doc_tool.py:28-32). -/
def entryOf (path : String) (c : Cursor) : CacheEntry :=
  ⟨kindName c.kind, path, c.line⟩

/-- One iteration of the cursor loop of `extract_symbols`
(src/api_doc_tool.py:24-33) on the running (cache, all_symbols) state. -/
def lexStep (path : String) (st : List (String × CacheEntry) × List String)
    (c : Cursor) : List (String × CacheEntry) × List String :=
  if lexQualifies c then
    (dictInsert st.1 c.spelling (entryOf path c), st.2 ++ [c.spelling])
  else st

/-- One iteration of the file loop of `extract_symbols`
(src/api_doc_tool.py:22-33). -/
def lexFileStep (st : List (String × CacheEntry) × List String)
    (f : LexFile) : List (String × CacheEntry) × List String :=
  f.cursors.foldl (lexStep f.path) st

/-- `extract_symbols` (src/api_doc_tool.py:19-34): fold over the files and
each file's top-level cursors; a qualifying cursor updates the global
`symbol_cache` (passed in as `cache0`) and appends its spelling to
`all_symbols`. -/
def extract_symbols (cache0 : List (String × CacheEntry))
    (files : List LexFile) : List (String × CacheEntry) × List String :=
  files.foldl lexFileStep (cache0, [])

/-- The stream of qualifying (filepath, cursor) pairs in processing order. -/
def qualStream (files : List LexFile) : List (String × Cursor) :=
  files.flatMap (fun f => (f.cursors.filter lexQualifies).map (fun c => (f.path, c)))

/-- `snippet_lines = lines[info["line"] - 1 : info["line"] + 10]`
(src/api_doc_tool.py:42), Python slice semantics for `1 ≤ line`:
drop the first `line - 1` lines and take the next
`(line + 10) - (line - 1) = 11`. -/
def snippet_lines (lines : List String) (line : Nat) : List String :=
  (lines.drop (line - 1)).take (line + 10 - (line - 1))

/-! ## Specification-side helpers -/

/-- Keys of an association list, in order. -/
def keysOf {β : Type} (m : List (String × β)) : List String :=
  m.map Prod.fst

/-- Deduplicate a list of names keeping the first occurrence of each name,
order preserved. -/
def firstDedup (l : List String) : List String :=
  l.foldl (fun acc n => if n ∈ acc then acc else acc ++ [n]) []

/-- The part of `buildDefs` after the leading target symbol. -/
def bundleTail (symbol : Symbol) (symbol_map : List (String × Symbol)) :
    List Symbol :=
  symbol.type_references.filterMap (fun ref => lookupD symbol_map ref)
    ++ symbol.fields.filterMap (fun field => lookupD symbol_map field.2)
    ++ (if symbol.type = "typedef" then (lookupD symbol_map symbol.underlying).toList
        else [])

/-- The name-keyed-map invariant: every entry's value is a symbol whose
name is the entry's key.  `symbolMapOf` always satisfies it. -/
def nameKeyed (m : List (String × Symbol)) : Prop :=
  ∀ p ∈ m, Symbol.name p.2 = p.1

/-! ## Concrete inputs used by witnesses and counterexamples -/

/-- A C `struct Foo` with a self-referential field `Foo *next`, as
collected and enriched by hdocs (`Foo` resolves during enrichment, so it
lands in `type_references`). -/
def cxStructFoo : Symbol :=
  { type := "struct", name := "Foo", fields := [("next", "Foo *")], type_references := ["Foo"] }

/-- A C `typedef struct Foo Foo;` as collected by hdocs. -/
def cxTypedefFoo : Symbol :=
  { type := "typedef", name := "Foo", underlying := "struct Foo" }

/-- A bare `struct Foo` defined in a second unit. -/
def cxFooDef : Symbol :=
  { type := "struct", name := "Foo" }

/-- A `struct S` with a field of decorated type `Foo *`, collected in a
unit whose local definitions set does not contain `Foo`, so enrichment
recorded no reference. -/
def cxFieldS : Symbol :=
  { type := "struct", name := "S", fields := [("p", "Foo *")] }

/-- Witness symbol for C1: a struct with no references. -/
def w1Sym : Symbol :=
  { type := "struct", name := "W" }

/-- Witness symbols for C3: `struct Bar` and a `struct S3` holding a field
of undecorated type `Bar`. -/
def w3Bar : Symbol :=
  { type := "struct", name := "Bar" }

/-- Witness target for C3. -/
def w3S : Symbol :=
  { type := "struct", name := "S3", fields := [("a", "Bar")] }

/-- Witness symbols for C7: a function referencing `Bar7`. -/
def w7Bar : Symbol :=
  { type := "struct", name := "Bar7" }

/-- Witness target for C7. -/
def w7F : Symbol :=
  { type := "function", name := "f7", type_references := ["Bar7"] }

/-- Witness symbols for C8: two merged symbols of different kinds sharing
the name `Dup`, and a target referencing that name. -/
def w8Struct : Symbol :=
  { type := "struct", name := "Dup" }

/-- Later-merged typedef of the same name. -/
def w8Typedef : Symbol :=
  { type := "typedef", name := "Dup", underlying := "int" }

/-- Witness target for C8. -/
def w8T : Symbol :=
  { type := "struct", name := "T", type_references := ["Dup"] }

/-- Witness files for C9: a user file declaring `size_t` and `MyType`. -/
def w9Files : List LexFile :=
  [⟨"/home/u/a.c",
    [⟨CursorKind.TYPEDEF_DECL, "size_t", some "/home/u/a.c", 3⟩,
     ⟨CursorKind.STRUCT_DECL, "MyType", some "/home/u/a.c", 5⟩]⟩]

/-! ## Lemmas about the Python string primitives -/

theorem mem_removeAllFuel {pat : List Char} {x : Char} :
    ∀ (fuel : Nat) (l : List Char), x ∈ removeAllFuel pat fuel l → x ∈ l := by
  intro fuel
  induction fuel with
  | zero =>
    intro l h
    cases l with
    | nil => simp [removeAllFuel] at h
    | cons c rest => simpa [removeAllFuel] using h
  | succ n ih =>
    intro l h
    cases l with
    | nil => simp [removeAllFuel] at h
    | cons c rest =>
      simp only [removeAllFuel] at h
      by_cases hc : pat ≠ [] ∧ pat.isPrefixOf (c :: rest)
      · rw [if_pos hc] at h
        have := ih _ h
        exact List.mem_cons_of_mem c (List.mem_of_mem_drop this)
      · rw [if_neg hc] at h
        rcases List.mem_cons.mp h with h1 | h2
        · exact h1 ▸ List.mem_cons_self c rest
        · exact List.mem_cons_of_mem c (ih _ h2)

theorem mem_removeAll {pat : List Char} {x : Char} {l : List Char}
    (h : x ∈ removeAll pat l) : x ∈ l :=
  mem_removeAllFuel _ _ h

theorem removeAllFuel_of_not_containsSub {pat : List Char} :
    ∀ (fuel : Nat) (l : List Char), containsSub pat l = false →
      removeAllFuel pat fuel l = l := by
  intro fuel
  induction fuel with
  | zero =>
    intro l _
    cases l with
    | nil => rfl
    | cons c rest => rfl
  | succ n ih =>
    intro l h
    cases l with
    | nil => rfl
    | cons c rest =>
      simp only [containsSub, Bool.or_eq_false_iff] at h
      simp only [removeAllFuel]
      rw [if_neg (by simp [h.1]), ih rest h.2]

theorem removeAll_of_not_containsSub {pat l : List Char}
    (h : containsSub pat l = false) : removeAll pat l = l :=
  removeAllFuel_of_not_containsSub _ _ h

theorem containsSub_single_of_not_mem {c : Char} {l : List Char}
    (h : c ∉ l) : containsSub [c] l = false := by
  induction l with
  | nil => rfl
  | cons x rest ih =>
    simp only [containsSub, Bool.or_eq_false_iff]
    constructor
    · simp only [List.isPrefixOf, List.isPrefixOf.eq_def, Bool.and_eq_false_iff]
      left
      simp only [beq_eq_false_iff_ne, ne_eq]
      intro hcx
      exact h (hcx ▸ List.mem_cons_self x rest)
    · exact ih (fun hm => h (List.mem_cons_of_mem x hm))

theorem removeAll_single_of_not_mem {c : Char} {l : List Char}
    (h : c ∉ l) : removeAll [c] l = l :=
  removeAll_of_not_containsSub (containsSub_single_of_not_mem h)

theorem not_mem_removeAllFuel_single {c : Char} :
    ∀ (fuel : Nat) (l : List Char), l.length ≤ fuel →
      c ∉ removeAllFuel [c] fuel l := by
  intro fuel
  induction fuel with
  | zero =>
    intro l hl
    have : l = [] := List.length_eq_zero.mp (Nat.le_zero.mp hl)
    subst this
    simp [removeAllFuel]
  | succ n ih =>
    intro l hl
    cases l with
    | nil => simp [removeAllFuel]
    | cons x rest =>
      simp only [removeAllFuel]
      by_cases hx : c = x
      · subst hx
        rw [if_pos]
        · simpa using ih rest (by simpa using hl)
        · constructor
          · simp
          · simp [List.isPrefixOf]
      · rw [if_neg]
        · intro hmem
          rcases List.mem_cons.mp hmem with h1 | h2
          · exact hx h1
          · exact ih rest (by simp at hl; omega) h2
        · intro hcontra
          have := hcontra.2
          simp [List.isPrefixOf] at this
          exact hx this


theorem not_mem_removeAll_single (c : Char) (l : List Char) :
    c ∉ removeAll [c] l :=
  not_mem_removeAllFuel_single l.length l le_rfl

theorem pyStrip_eq_rdrop (l : List Char) :
    pyStrip l = List.rdropWhile Char.isWhitespace (List.dropWhile Char.isWhitespace l) :=
  rfl

theorem dropWhile_eq_self_of_pre {p : Char → Bool} {S A : List Char}
    (hpre : S <+: A) (hA : List.dropWhile p A = A) :
    List.dropWhile p S = S := by
  cases S with
  | nil => simp
  | cons a t =>
    obtain ⟨r, hr⟩ := hpre
    rw [← hr, List.cons_append, List.dropWhile_cons] at hA
    rw [List.dropWhile_cons]
    by_cases hpa : p a
    · rw [if_pos hpa] at hA
      have hlen := congrArg List.length hA
      have hle := (List.dropWhile_sublist p (l := t ++ r)).length_le
      simp only [List.length_cons, List.length_append] at hlen hle
      omega
    · rw [if_neg hpa]

theorem pyStrip_idem (l : List Char) : pyStrip (pyStrip l) = pyStrip l := by
  rw [pyStrip_eq_rdrop l, pyStrip_eq_rdrop]
  have h1 : List.dropWhile Char.isWhitespace
      (List.rdropWhile Char.isWhitespace (List.dropWhile Char.isWhitespace l)) =
      List.rdropWhile Char.isWhitespace (List.dropWhile Char.isWhitespace l) :=
    dropWhile_eq_self_of_pre (List.rdropWhile_prefix _ _)
      (List.dropWhile_idempotent _ _)
  rw [h1, List.rdropWhile_idempotent]

theorem mem_pyStrip {x : Char} {l : List Char} (h : x ∈ pyStrip l) : x ∈ l := by
  rw [pyStrip_eq_rdrop] at h
  have h1 := (List.rdropWhile_prefix Char.isWhitespace
    (List.dropWhile Char.isWhitespace l)).sublist.mem h
  exact (List.dropWhile_sublist Char.isWhitespace).mem h1

theorem star_not_mem_canonL (l : List Char) : '*' ∉ canonL l := by
  intro h
  exact not_mem_removeAll_single '*' l
    (mem_removeAll (mem_removeAll (mem_pyStrip h)))

theorem amp_not_mem_canonL (l : List Char) : '&' ∉ canonL l := by
  intro h
  exact not_mem_removeAll_single '&' (removeAll ['*'] l)
    (mem_removeAll (mem_pyStrip h))

theorem canonL_idem_of {l : List Char}
    (h : containsSub constPat (canonL l) = false) :
    canonL (canonL l) = canonL l := by
  have h1 : removeAll ['*'] (canonL l) = canonL l :=
    removeAll_single_of_not_mem (star_not_mem_canonL l)
  have h2 : removeAll ['&'] (canonL l) = canonL l :=
    removeAll_single_of_not_mem (amp_not_mem_canonL l)
  have h3 : removeAll constPat (canonL l) = canonL l :=
    removeAll_of_not_containsSub h
  have h4 : pyStrip (canonL l) = canonL l :=
    pyStrip_idem (removeAll constPat (removeAll ['&'] (removeAll ['*'] l)))
  calc canonL (canonL l)
      = pyStrip (removeAll constPat (removeAll ['&'] (removeAll ['*'] (canonL l)))) := rfl
    _ = canonL l := by rw [h1, h2, h3, h4]

/-- C2 (amended): canonicalization is idempotent on every string whose
canonical form contains no occurrence of the substring `const` (because
`const` is removed as a raw substring, a removal can splice a fresh
occurrence together, which breaks idempotence in general); the concrete
equation `canon "const Foo*&" = "Foo"` holds. -/
theorem c2_canon_amended :
    (∀ x : String, containsSub constPat (canon x).data = false →
      canon (canon x) = canon x)
    ∧ canon "const Foo*&" = "Foo" := by
  constructor
  · intro x h
    exact congrArg String.mk (canonL_idem_of h)
  · decide

/-- C2 counterexample: canonicalization as implemented is not idempotent
for every string — removing `const` from `"conconstst"` splices together
a new `"const"`, so a second pass changes the result again. -/
theorem c2_canon_counterexample :
    canon (canon "conconstst") ≠ canon "conconstst" := by
  decide

/-- C2 witness: the amended idempotence applied at `"const Foo*&"`. -/
theorem c2_canon_amended_witness :
    containsSub constPat (canon "const Foo*&").data = false
    ∧ canon (canon "const Foo*&") = canon "const Foo*&" :=
  ⟨by decide, c2_canon_amended.1 "const Foo*&" (by decide)⟩

/-! ## Lemmas about the Python dict model -/

theorem dictInsert_any_iff {β : Type} (m : List (String × β)) (k : String) :
    m.any (fun p => decide (p.1 = k)) = true ↔ k ∈ keysOf m := by
  rw [List.any_eq_true]
  constructor
  · rintro ⟨p, hp, hpk⟩
    simp only [decide_eq_true_eq] at hpk
    exact hpk ▸ List.mem_map.mpr ⟨p, hp, rfl⟩
  · intro h
    obtain ⟨p, hp, he⟩ := List.mem_map.mp h
    exact ⟨p, hp, by simp [he]⟩

theorem lookupD_nil {β : Type} (k : String) : lookupD ([] : List (String × β)) k = none :=
  rfl

theorem lookupD_dictInsert {β : Type} (m : List (String × β)) (k k' : String) (v : β) :
    lookupD (dictInsert m k v) k' = if k' = k then some v else lookupD m k' := by
  unfold dictInsert lookupD
  by_cases hmem : m.any (fun p => decide (p.1 = k)) = true
  · rw [if_pos hmem, List.find?_map]
    have hcomp : ((fun p : String × β => decide (p.1 = k')) ∘
        (fun p : String × β => if p.1 = k then (k, v) else p)) =
        fun p : String × β => decide (p.1 = k') := by
      funext p
      by_cases h : p.1 = k <;> simp [h]
    rw [hcomp]
    by_cases hk : k' = k
    · subst hk
      obtain ⟨p₀, hp₀, hp₀k⟩ := List.any_eq_true.mp hmem
      cases hf : m.find? (fun p : String × β => decide (p.1 = k')) with
      | none =>
        rw [List.find?_eq_none] at hf
        exact absurd hp₀k (by simpa using hf p₀ hp₀)
      | some q =>
        have hq := List.find?_some hf
        simp only [decide_eq_true_eq] at hq
        simp [hq]
    · cases hf : m.find? (fun p : String × β => decide (p.1 = k')) with
      | none => simp [hk]
      | some q =>
        have hq := List.find?_some hf
        simp only [decide_eq_true_eq] at hq
        have hqk : q.1 ≠ k := fun h => hk (by rw [← hq, h])
        simp [hqk, hk]
  · rw [if_neg hmem, List.find?_append]
    by_cases hk : k' = k
    · subst hk
      have hnone : m.find? (fun p : String × β => decide (p.1 = k')) = none := by
        rw [List.find?_eq_none]
        intro p hp
        simp only [decide_eq_true_eq]
        intro he
        exact hmem (List.any_eq_true.mpr ⟨p, hp, by simp [he]⟩)
      simp [hnone, List.find?]
    · have hsing : ([(k, v)] : List (String × β)).find? (fun p => decide (p.1 = k')) = none := by
        have hne : k ≠ k' := fun h => hk h.symm
        simp [List.find?, hne]
      rw [hsing, Option.or_none, if_neg hk]

theorem keysOf_dictInsert {β : Type} (m : List (String × β)) (k : String) (v : β) :
    keysOf (dictInsert m k v) =
      if k ∈ keysOf m then keysOf m else keysOf m ++ [k] := by
  unfold dictInsert
  by_cases hmem : k ∈ keysOf m
  · rw [if_pos ((dictInsert_any_iff m k).mpr hmem), if_pos hmem]
    unfold keysOf
    rw [List.map_map]
    apply List.map_congr_left
    intro p _
    by_cases h : p.1 = k <;> simp [h]
  · rw [if_neg (fun h => hmem ((dictInsert_any_iff m k).mp h)), if_neg hmem]
    simp [keysOf]

theorem mem_dictInsert {β : Type} {p : String × β} {m : List (String × β)}
    {k : String} {v : β} (h : p ∈ dictInsert m k v) : p = (k, v) ∨ p ∈ m := by
  unfold dictInsert at h
  by_cases hmem : m.any (fun q => decide (q.1 = k)) = true
  · rw [if_pos hmem] at h
    obtain ⟨q, hq, he⟩ := List.mem_map.mp h
    by_cases hqk : q.1 = k
    · left
      rw [← he]
      simp [hqk]
    · right
      rw [← he]
      simpa [hqk] using hq
  · rw [if_neg hmem] at h
    rcases List.mem_append.mp h with h1 | h2
    · right
      exact h1
    · left
      simpa using h2

theorem dictInsert_ne_nil_head {β : Type} {m : List (String × β)} (k : String) (v : β)
    (hm : m ≠ []) :
    dictInsert m k v ≠ [] ∧
      (dictInsert m k v).head?.map Prod.fst = m.head?.map Prod.fst := by
  unfold dictInsert
  by_cases hmem : m.any (fun q => decide (q.1 = k)) = true
  · rw [if_pos hmem]
    constructor
    · simpa using hm
    · rw [List.head?_map, Option.map_map]
      congr 1
      funext p
      by_cases h : p.1 = k <;> simp [h]
  · rw [if_neg hmem]
    constructor
    · simp
    · rw [List.head?_append_of_ne_nil _ hm]

theorem pyDictBy_cons {α β : Type} (key : α → String) (val : α → β)
    (m : List (String × β)) (x : α) (xs : List α) :
    pyDictBy key val m (x :: xs) = pyDictBy key val (dictInsert m (key x) (val x)) xs :=
  rfl

theorem pyDictBy_append {α β : Type} (key : α → String) (val : α → β)
    (m : List (String × β)) (xs ys : List α) :
    pyDictBy key val m (xs ++ ys) = pyDictBy key val (pyDictBy key val m xs) ys := by
  unfold pyDictBy
  exact List.foldl_append _ _ _ _

theorem getLast?_cons_or {γ : Type} (a : γ) (l : List γ) :
    (a :: l).getLast? = l.getLast?.or (some a) := by
  cases l with
  | nil => rfl
  | cons b t =>
    rw [List.getLast?_cons_cons]
    cases hg : (b :: t).getLast? with
    | none => exact absurd (List.getLast?_eq_none_iff.mp hg) (by simp)
    | some y => rfl

theorem map_or_comm {β γ : Type} (f : β → γ) (a b : Option β) :
    (a.or b).map f = (a.map f).or (b.map f) := by
  cases a <;> rfl

theorem lookupD_pyDictBy {α β : Type} (key : α → String) (val : α → β) :
    ∀ (xs : List α) (m : List (String × β)) (k : String),
      lookupD (pyDictBy key val m xs) k =
        (((xs.filter (fun x => decide (key x = k))).getLast?).map val).or (lookupD m k) := by
  intro xs
  induction xs with
  | nil =>
    intro m k
    simp [pyDictBy]
  | cons x rest ih =>
    intro m k
    rw [pyDictBy_cons, ih, lookupD_dictInsert, List.filter_cons]
    by_cases hx : key x = k
    · have hxd : decide (key x = k) = true := by simp [hx]
      rw [if_pos hxd, getLast?_cons_or, map_or_comm, Option.or_assoc, if_pos hx.symm]
      rfl
    · have hxd : ¬(decide (key x = k) = true) := by simp [hx]
      have hk2 : ¬(k = key x) := fun h => hx h.symm
      rw [if_neg hxd, if_neg hk2]

theorem keysOf_pyDictBy {α β : Type} (key : α → String) (val : α → β) :
    ∀ (xs : List α) (m : List (String × β)),
      keysOf (pyDictBy key val m xs) =
        (xs.map key).foldl (fun acc n => if n ∈ acc then acc else acc ++ [n]) (keysOf m) := by
  intro xs
  induction xs with
  | nil =>
    intro m
    rfl
  | cons x rest ih =>
    intro m
    rw [pyDictBy_cons, ih, List.map_cons, List.foldl_cons, keysOf_dictInsert]

theorem mem_pyDictBy {α β : Type} {key : α → String} {val : α → β} :
    ∀ {xs : List α} {m : List (String × β)} {p : String × β},
      p ∈ pyDictBy key val m xs → (∃ x ∈ xs, p = (key x, val x)) ∨ p ∈ m := by
  intro xs
  induction xs with
  | nil =>
    intro m p h
    right
    exact h
  | cons x rest ih =>
    intro m p h
    rw [pyDictBy_cons] at h
    rcases ih h with h1 | h2
    · obtain ⟨x', hx', he⟩ := h1
      exact Or.inl ⟨x', List.mem_cons_of_mem x hx', he⟩
    · rcases mem_dictInsert h2 with h3 | h4
      · exact Or.inl ⟨x, List.mem_cons_self x rest, h3⟩
      · exact Or.inr h4

theorem pyDictBy_ne_nil_head {α β : Type} (key : α → String) (val : α → β) :
    ∀ (xs : List α) (m : List (String × β)), m ≠ [] →
      pyDictBy key val m xs ≠ [] ∧
        (pyDictBy key val m xs).head?.map Prod.fst = m.head?.map Prod.fst := by
  intro xs
  induction xs with
  | nil =>
    intro m hm
    exact ⟨hm, rfl⟩
  | cons x rest ih =>
    intro m hm
    have hd := dictInsert_ne_nil_head (m := m) (key x) (val x) hm
    have hrec := ih (dictInsert m (key x) (val x)) hd.1
    exact ⟨hrec.1, by rw [pyDictBy_cons, hrec.2, hd.2]⟩

theorem mem_foldl_dedup :
    ∀ (l : List String) (acc : List String) (x : String),
      x ∈ l.foldl (fun acc n => if n ∈ acc then acc else acc ++ [n]) acc ↔
        x ∈ acc ∨ x ∈ l := by
  intro l
  induction l with
  | nil =>
    intro acc x
    simp
  | cons n rest ih =>
    intro acc x
    rw [List.foldl_cons, ih]
    by_cases hn : n ∈ acc
    · rw [if_pos hn]
      constructor
      · rintro (h | h)
        · exact Or.inl h
        · exact Or.inr (List.mem_cons_of_mem n h)
      · rintro (h | h)
        · exact Or.inl h
        · rcases List.mem_cons.mp h with rfl | h2
          · exact Or.inl hn
          · exact Or.inr h2
    · rw [if_neg hn]
      simp only [List.mem_append, List.mem_singleton, List.mem_cons]
      tauto

theorem nodup_foldl_dedup :
    ∀ (l : List String) (acc : List String), acc.Nodup →
      (l.foldl (fun acc n => if n ∈ acc then acc else acc ++ [n]) acc).Nodup := by
  intro l
  induction l with
  | nil =>
    intro acc h
    exact h
  | cons n rest ih =>
    intro acc h
    rw [List.foldl_cons]
    by_cases hn : n ∈ acc
    · rw [if_pos hn]
      exact ih acc h
    · rw [if_neg hn]
      exact ih _ (by simp [List.nodup_append, h, hn])

theorem lookupD_of_mem_nodup {β : Type} :
    ∀ {m : List (String × β)} {p : String × β},
      (keysOf m).Nodup → p ∈ m → lookupD m p.1 = some p.2 := by
  intro m
  induction m with
  | nil =>
    intro p _ hp
    exact absurd hp (List.not_mem_nil p)
  | cons q rest ih =>
    intro p hnd hp
    have hnd' : (q.1 :: keysOf rest).Nodup := by
      simpa only [keysOf, List.map_cons] using hnd
    rcases List.mem_cons.mp hp with rfl | hp2
    · unfold lookupD
      rw [List.find?_cons_of_pos _ (by simp)]
      rfl
    · have hq1 : q.1 ∉ keysOf rest := (List.nodup_cons.mp hnd').1
      have hne : q.1 ≠ p.1 := by
        intro he
        exact hq1 (he ▸ List.mem_map.mpr ⟨p, hp2, rfl⟩)
      unfold lookupD
      rw [List.find?_cons_of_neg _ (by simp [hne])]
      exact ih (List.nodup_cons.mp hnd').2 hp2

/-! ## Lemmas about bundle assembly -/

theorem mem_of_getLast?_some {γ : Type} {l : List γ} {a : γ}
    (h : l.getLast? = some a) : a ∈ l := by
  have hm := List.mem_getLast?_eq_getLast (l := l) (x := a)
      (by simp [h, Option.mem_def])
  obtain ⟨hne, he⟩ := hm
  exact he ▸ List.getLast_mem hne

theorem getLast?_eq_of_all_eq {l : List Symbol} {v : Symbol}
    (hne : l ≠ []) (hall : ∀ x ∈ l, x = v) : l.getLast? = some v := by
  cases hg : l.getLast? with
  | none => exact absurd (List.getLast?_eq_none_iff.mp hg) hne
  | some y => rw [hall y (mem_of_getLast?_some hg)]

theorem buildDefs_eq (s : Symbol) (m : List (String × Symbol)) :
    buildDefs s m = s :: bundleTail s m := by
  simp [buildDefs, bundleTail]

theorem mem_bundleTail_lookup {s : Symbol} {m : List (String × Symbol)} {v : Symbol}
    (h : v ∈ bundleTail s m) : ∃ k, lookupD m k = some v := by
  unfold bundleTail at h
  rcases List.mem_append.mp h with h1 | h2
  · rcases List.mem_append.mp h1 with ha | hb
    · obtain ⟨r, _, hr⟩ := List.mem_filterMap.mp ha
      exact ⟨r, hr⟩
    · obtain ⟨f, _, hf⟩ := List.mem_filterMap.mp hb
      exact ⟨f.2, hf⟩
  · by_cases ht : s.type = "typedef"
    · rw [if_pos ht] at h2
      exact ⟨s.underlying, by simpa using h2⟩
    · rw [if_neg ht] at h2
      exact absurd h2 (List.not_mem_nil v)

theorem lookupD_name_of_nameKeyed {m : List (String × Symbol)} (hm : nameKeyed m)
    {k : String} {v : Symbol} (h : lookupD m k = some v) : v.name = k := by
  unfold lookupD at h
  cases hf : m.find? (fun p => decide (p.1 = k)) with
  | none =>
    rw [hf] at h
    exact absurd h (by simp)
  | some p =>
    rw [hf] at h
    have hp := List.find?_some hf
    simp only [decide_eq_true_eq] at hp
    have hkeyed := hm p (List.mem_of_find?_eq_some hf)
    have hv : p.2 = v := by simpa using h
    rw [← hv, hkeyed, hp]

theorem nameKeyed_pyDict (xs : List Symbol) :
    nameKeyed (pyDictBy Symbol.name id [] xs) := by
  intro p hp
  rcases mem_pyDictBy hp with ⟨x, _, he⟩ | h2
  · simp [he]
  · exact absurd h2 (List.not_mem_nil p)

theorem nameKeyed_symbolMapOf (symbols : List Symbol) :
    nameKeyed (symbolMapOf symbols) :=
  nameKeyed_pyDict symbols

theorem lookupD_nameDict (xs : List Symbol) (k : String) :
    lookupD (pyDictBy Symbol.name id [] xs) k =
      (xs.filter (fun d => decide (d.name = k))).getLast? := by
  rw [lookupD_pyDictBy, lookupD_nil, Option.or_none]
  cases (xs.filter (fun d => decide (d.name = k))).getLast? <;> rfl

theorem lookupD_symbolMapOf (xs : List Symbol) (k : String) :
    lookupD (symbolMapOf xs) k =
      (xs.filter (fun d => decide (d.name = k))).getLast? :=
  lookupD_nameDict xs k

theorem nodup_keys_pyDict (xs : List Symbol) :
    (keysOf (pyDictBy Symbol.name id [] xs)).Nodup := by
  rw [keysOf_pyDictBy]
  exact nodup_foldl_dedup _ _ (by simp [keysOf])

theorem mem_keys_pyDict (xs : List Symbol) (n : String) :
    n ∈ keysOf (pyDictBy Symbol.name id [] xs) ↔ n ∈ xs.map Symbol.name := by
  rw [keysOf_pyDictBy, mem_foldl_dedup]
  simp [keysOf]

theorem uniqueDefs_mem_getLast {defs : List Symbol} {d : Symbol}
    (h : d ∈ uniqueDefs defs) :
    (defs.filter (fun x => decide (x.name = d.name))).getLast? = some d := by
  unfold uniqueDefs at h
  obtain ⟨p, hp, he⟩ := List.mem_map.mp h
  have hnk := nameKeyed_pyDict defs p hp
  have hlk := lookupD_of_mem_nodup (nodup_keys_pyDict defs) hp
  rw [lookupD_nameDict] at hlk
  rw [← he, hnk]
  exact hlk

theorem mem_uniqueDefs_of_getLast {defs : List Symbol} {v : Symbol}
    (hmem : v ∈ defs)
    (hlast : (defs.filter (fun x => decide (x.name = v.name))).getLast? = some v) :
    v ∈ uniqueDefs defs := by
  have hk : v.name ∈ keysOf (pyDictBy Symbol.name id [] defs) :=
    (mem_keys_pyDict defs v.name).mpr (List.mem_map.mpr ⟨v, hmem, rfl⟩)
  obtain ⟨p, hp, hpe⟩ := List.mem_map.mp hk
  have hd : p.2 ∈ uniqueDefs defs := List.mem_map.mpr ⟨p, hp, rfl⟩
  have hgl := uniqueDefs_mem_getLast hd
  have hnk := nameKeyed_pyDict defs p hp
  rw [hnk, hpe, hlast] at hgl
  have hv : v = p.2 := Option.some.inj hgl
  rw [hv]
  exact hd

theorem bundle_filter_last {s : Symbol} {m : List (String × Symbol)} {v : Symbol}
    (hm : nameKeyed m) (hv : v ∈ bundleTail s m) :
    ((buildDefs s m).filter (fun x => decide (x.name = v.name))).getLast? = some v := by
  obtain ⟨k, hk⟩ := mem_bundleTail_lookup hv
  have hvn : v.name = k := lookupD_name_of_nameKeyed hm hk
  have hall : ∀ x ∈ bundleTail s m, x.name = v.name → x = v := by
    intro x hx hxn
    obtain ⟨k', hk'⟩ := mem_bundleTail_lookup hx
    have hxn' : x.name = k' := lookupD_name_of_nameKeyed hm hk'
    have hkk : k' = k := by rw [← hxn', hxn, hvn]
    rw [hkk, hk] at hk'
    exact (Option.some.inj hk').symm
  have htail_ne : (bundleTail s m).filter (fun x => decide (x.name = v.name)) ≠ [] := by
    intro hnil
    have hvf : v ∈ (bundleTail s m).filter (fun x => decide (x.name = v.name)) :=
      List.mem_filter.mpr ⟨hv, by simp⟩
    rw [hnil] at hvf
    exact List.not_mem_nil v hvf
  have hlast : ((bundleTail s m).filter (fun x => decide (x.name = v.name))).getLast? =
      some v := by
    apply getLast?_eq_of_all_eq htail_ne
    intro x hx
    have hx' := List.mem_filter.mp hx
    exact hall x hx'.1 (by simpa using hx'.2)
  rw [buildDefs_eq, List.filter_cons]
  by_cases hs : decide (s.name = v.name) = true
  · rw [if_pos hs, getLast?_cons_or, hlast]
    rfl
  · rw [if_neg hs]
    exact hlast

theorem mem_bundle_of_mem_tail {s : Symbol} {m : List (String × Symbol)} {v : Symbol}
    (hm : nameKeyed m) (hv : v ∈ bundleTail s m) :
    v ∈ build_prompt_for_symbol s m := by
  unfold build_prompt_for_symbol
  apply mem_uniqueDefs_of_getLast
  · rw [buildDefs_eq]
    exact List.mem_cons_of_mem s hv
  · exact bundle_filter_last hm hv

theorem mem_defs_of_mem_bundle {s : Symbol} {m : List (String × Symbol)} {d : Symbol}
    (hd : d ∈ build_prompt_for_symbol s m) : d ∈ buildDefs s m := by
  unfold build_prompt_for_symbol uniqueDefs at hd
  obtain ⟨p, hp, he⟩ := List.mem_map.mp hd
  rcases mem_pyDictBy hp with ⟨x, hx, hpe⟩ | h2
  · have hdx : d = x := by rw [← he, hpe]; rfl
    rw [hdx]
    exact hx
  · exact absurd h2 (List.not_mem_nil p)

/-! ## Claims C1, C3, C7, C8 -/

/-- C1 (amended): the bundle's first element is the target symbol `s`
itself whenever every entry of the raw definitions list that shares `s`'s
name is `s` (in particular whenever the map resolves `s`'s name to `s`);
deduplication is by resolved symbol name, the first occurrence of a name
fixes the position, but the retained entry for a name is the LAST
occurrence in the definitions list — a later duplicate replaces the
earlier entry's value in place. -/
theorem c1_bundle_head_dedup :
    ∀ (s : Symbol) (m : List (String × Symbol)),
      ((∀ d ∈ buildDefs s m, d.name = s.name → d = s) →
        (build_prompt_for_symbol s m).head? = some s)
      ∧ (build_prompt_for_symbol s m).map Symbol.name =
          firstDedup ((buildDefs s m).map Symbol.name)
      ∧ ∀ d ∈ build_prompt_for_symbol s m,
          ((buildDefs s m).filter (fun x => decide (x.name = d.name))).getLast? = some d := by
  intro s m
  refine ⟨?_, ?_, ?_⟩
  · intro hall
    have h0 : pyDictBy Symbol.name id [] (buildDefs s m) =
        pyDictBy Symbol.name id [(s.name, s)] (bundleTail s m) := by
      rw [buildDefs_eq, pyDictBy_cons]
      rfl
    have hhead := pyDictBy_ne_nil_head Symbol.name id (bundleTail s m)
        [(s.name, s)] (by simp)
    rw [← h0] at hhead
    cases hpy : pyDictBy Symbol.name id [] (buildDefs s m) with
    | nil => exact absurd hpy hhead.1
    | cons p rest =>
      have hp1 : p.1 = s.name := by
        have := hhead.2
        rw [hpy] at this
        simpa using this
      have hlk : lookupD (pyDictBy Symbol.name id [] (buildDefs s m)) s.name =
          some p.2 := by
        rw [hpy]
        unfold lookupD
        rw [List.find?_cons_of_pos _ (by simp [hp1])]
        rfl
      rw [lookupD_nameDict] at hlk
      have hfilter : ((buildDefs s m).filter
          (fun x => decide (x.name = s.name))).getLast? = some s := by
        apply getLast?_eq_of_all_eq
        · intro hnil
          have hsf : s ∈ (buildDefs s m).filter (fun x => decide (x.name = s.name)) :=
            List.mem_filter.mpr ⟨by rw [buildDefs_eq]; exact List.mem_cons_self s _, by simp⟩
          rw [hnil] at hsf
          exact List.not_mem_nil s hsf
        · intro x hx
          have hx' := List.mem_filter.mp hx
          exact hall x hx'.1 (by simpa using hx'.2)
      have hps : p.2 = s := by
        rw [hfilter] at hlk
        exact (Option.some.inj hlk).symm
      unfold build_prompt_for_symbol uniqueDefs
      rw [hpy]
      simp [hps]
  · unfold build_prompt_for_symbol uniqueDefs
    rw [List.map_map]
    have hmc : (pyDictBy Symbol.name id [] (buildDefs s m)).map (Symbol.name ∘ Prod.snd) =
        (pyDictBy Symbol.name id [] (buildDefs s m)).map Prod.fst :=
      List.map_congr_left (fun p hp => nameKeyed_pyDict (buildDefs s m) p hp)
    rw [hmc]
    have hk := keysOf_pyDictBy Symbol.name id (buildDefs s m) []
    unfold keysOf at hk
    rw [hk]
    rfl
  · intro d hd
    exact uniqueDefs_mem_getLast hd

/-- C1 counterexample: with `struct Foo { Foo *next; }` and the common C
idiom `typedef struct Foo Foo;` merged into the same table, the name-keyed
map resolves `Foo` to the typedef, and assembling the bundle for the
struct returns the typedef as first element — not the target itself, and
the later duplicate replaced the earlier entry. -/
theorem c1_counterexample :
    (build_prompt_for_symbol cxStructFoo
      (symbolMapOf (mergeSymbols [cxStructFoo, cxTypedefFoo]))).head? ≠
      some cxStructFoo := by
  decide

/-- C1 witness: the amended statement applied to a one-symbol table. -/
theorem c1_witness :
    (build_prompt_for_symbol w1Sym (symbolMapOf [w1Sym])).head? = some w1Sym
    ∧ (build_prompt_for_symbol w1Sym (symbolMapOf [w1Sym])).map Symbol.name =
        firstDedup ((buildDefs w1Sym (symbolMapOf [w1Sym])).map Symbol.name)
    ∧ ((buildDefs w1Sym (symbolMapOf [w1Sym])).filter
        (fun x => decide (x.name = w1Sym.name))).getLast? = some w1Sym :=
  ⟨(c1_bundle_head_dedup w1Sym (symbolMapOf [w1Sym])).1 (by decide),
   (c1_bundle_head_dedup w1Sym (symbolMapOf [w1Sym])).2.1,
   (c1_bundle_head_dedup w1Sym (symbolMapOf [w1Sym])).2.2 w1Sym (by decide)⟩

/-- C3 (amended): the fields branch and the typedef branch of bundle
assembly resolve the RAW type spelling against the name-keyed map, not the
canonicalized name: for every field whose raw type string resolves, the
resolved symbol is in the bundle, and for a typedef whose raw underlying
string resolves, that symbol is in the bundle.  A decorated spelling such
as `"Foo *"` therefore does not resolve through these branches (the
canonicalized name reaches the bundle only when enrichment recorded it in
`type_references`). -/
theorem c3_raw_resolution :
    ∀ (s : Symbol) (m : List (String × Symbol)), nameKeyed m →
      (∀ f ∈ s.fields, ∀ v : Symbol, lookupD m f.2 = some v →
        v ∈ build_prompt_for_symbol s m)
      ∧ (s.type = "typedef" → ∀ v : Symbol, lookupD m s.underlying = some v →
        v ∈ build_prompt_for_symbol s m) := by
  intro s m hm
  constructor
  · intro f hf v hv
    apply mem_bundle_of_mem_tail hm
    unfold bundleTail
    apply List.mem_append.mpr
    left
    apply List.mem_append.mpr
    right
    exact List.mem_filterMap.mpr ⟨f, hf, hv⟩
  · intro ht v hv
    apply mem_bundle_of_mem_tail hm
    unfold bundleTail
    apply List.mem_append.mpr
    right
    rw [if_pos ht]
    simp [hv]

/-- C3 counterexample: `struct S` has a field of canonicalizable type
`Foo *`; `Foo` resolves in the merged table (`canon "Foo *" = "Foo"` and
the table holds `Foo`), yet the assembled bundle for `S` does not contain
the `Foo` symbol, because the fields branch looks up the raw string
`"Foo *"`. -/
theorem c3_counterexample :
    canon "Foo *" = "Foo"
    ∧ lookupD (symbolMapOf (mergeSymbols [cxFieldS, cxFooDef])) (canon "Foo *") =
        some cxFooDef
    ∧ cxFooDef ∉ build_prompt_for_symbol cxFieldS
        (symbolMapOf (mergeSymbols [cxFieldS, cxFooDef])) := by
  refine ⟨by decide, by decide, by decide⟩

/-- C3 witness: a raw (undecorated) field type resolves and its symbol is
in the bundle. -/
theorem c3_witness :
    ("a", "Bar") ∈ w3S.fields
    ∧ lookupD (symbolMapOf [w3S, w3Bar]) "Bar" = some w3Bar
    ∧ w3Bar ∈ build_prompt_for_symbol w3S (symbolMapOf [w3S, w3Bar]) :=
  ⟨by decide, by decide,
   (c3_raw_resolution w3S (symbolMapOf [w3S, w3Bar])
      (nameKeyed_symbolMapOf [w3S, w3Bar])).1 ("a", "Bar") (by decide) w3Bar (by decide)⟩

/-- C7 (confirmed): every element of an assembled bundle other than the
target is obtained by a direct lookup from the target's own
`type_references`, the target's own field types, or (for a typedef) the
target's underlying type — one hop only, a referenced symbol's own
references are never expanded. -/
theorem c7_one_hop :
    ∀ (s : Symbol) (m : List (String × Symbol)) (d : Symbol),
      d ∈ build_prompt_for_symbol s m →
        d = s
        ∨ (∃ r ∈ s.type_references, lookupD m r = some d)
        ∨ (∃ f ∈ s.fields, lookupD m f.2 = some d)
        ∨ (s.type = "typedef" ∧ lookupD m s.underlying = some d) := by
  intro s m d hd
  have hdefs := mem_defs_of_mem_bundle hd
  rw [buildDefs_eq] at hdefs
  rcases List.mem_cons.mp hdefs with rfl | htail
  · exact Or.inl rfl
  · right
    unfold bundleTail at htail
    rcases List.mem_append.mp htail with h1 | hC
    · rcases List.mem_append.mp h1 with hA | hB
      · left
        obtain ⟨r, hr, hlr⟩ := List.mem_filterMap.mp hA
        exact ⟨r, hr, hlr⟩
      · right
        left
        obtain ⟨f, hf, hlf⟩ := List.mem_filterMap.mp hB
        exact ⟨f, hf, hlf⟩
    · right
      right
      by_cases ht : s.type = "typedef"
      · rw [if_pos ht] at hC
        exact ⟨ht, by simpa using hC⟩
      · rw [if_neg ht] at hC
        exact absurd hC (List.not_mem_nil d)

/-- C7 witness: the one-hop characterization applied to a bundle member. -/
theorem c7_witness :
    w7Bar ∈ build_prompt_for_symbol w7F (symbolMapOf [w7F, w7Bar])
    ∧ (w7Bar = w7F
        ∨ (∃ r ∈ w7F.type_references,
            lookupD (symbolMapOf [w7F, w7Bar]) r = some w7Bar)
        ∨ (∃ f ∈ w7F.fields,
            lookupD (symbolMapOf [w7F, w7Bar]) f.2 = some w7Bar)
        ∨ (w7F.type = "typedef"
            ∧ lookupD (symbolMapOf [w7F, w7Bar]) w7F.underlying = some w7Bar)) :=
  ⟨by decide, c7_one_hop w7F (symbolMapOf [w7F, w7Bar]) w7Bar (by decide)⟩

/-- C8 (confirmed): `main` builds the lookup map keyed by name alone with
last-occurrence-wins over the merged symbol list, so a lookup of any name
returns the symbol merged last under that name, and every non-target
bundle element is that last-merged symbol of its name — the earlier-merged
symbol of a shared name is unreachable through bundle assembly. -/
theorem c8_name_map_last_wins :
    ∀ (symbols : List Symbol) (n : String) (target d : Symbol),
      lookupD (symbolMapOf symbols) n =
        (symbols.filter (fun s => decide (s.name = n))).getLast?
      ∧ (d ∈ build_prompt_for_symbol target (symbolMapOf symbols) →
          d = target
          ∨ (symbols.filter (fun s => decide (s.name = d.name))).getLast? = some d) := by
  intro symbols n target d
  constructor
  · exact lookupD_symbolMapOf symbols n
  · intro hd
    have hdefs := mem_defs_of_mem_bundle hd
    rw [buildDefs_eq] at hdefs
    rcases List.mem_cons.mp hdefs with rfl | htail
    · exact Or.inl rfl
    · right
      obtain ⟨k, hk⟩ := mem_bundleTail_lookup htail
      have hn := lookupD_name_of_nameKeyed (nameKeyed_symbolMapOf symbols) hk
      rw [← hn] at hk
      rw [lookupD_symbolMapOf] at hk
      exact hk

/-- C8 witness: with a struct and a later typedef both named `Dup`, a
lookup of `Dup` returns the last-merged symbol, and the typedef is the one
reachable in a bundle. -/
theorem c8_witness :
    lookupD (symbolMapOf [w8T, w8Struct, w8Typedef]) "Dup" =
      ([w8T, w8Struct, w8Typedef].filter (fun s => decide (s.name = "Dup"))).getLast?
    ∧ (w8Typedef = w8T
        ∨ ([w8T, w8Struct, w8Typedef].filter
            (fun s => decide (s.name = w8Typedef.name))).getLast? = some w8Typedef) :=
  ⟨(c8_name_map_last_wins [w8T, w8Struct, w8Typedef] "Dup" w8T w8Typedef).1,
   (c8_name_map_last_wins [w8T, w8Struct, w8Typedef] "Dup" w8T w8Typedef).2 (by decide)⟩

/-! ## Claim C4: cross-unit merge -/

theorem mergeStep_filter_key (tk tn : String) :
    ∀ (syms acc : List Symbol),
      (syms.foldl mergeStep acc).filter (fun s => decide (s.type = tk ∧ s.name = tn)) =
        acc.filter (fun s => decide (s.type = tk ∧ s.name = tn)) ++
          (if acc.filter (fun s => decide (s.type = tk ∧ s.name = tn)) = []
           then (syms.filter (fun s => decide (s.type = tk ∧ s.name = tn))).take 1
           else []) := by
  intro syms
  induction syms with
  | nil =>
    intro acc
    by_cases h : acc.filter (fun s => decide (s.type = tk ∧ s.name = tn)) = [] <;>
      simp [h]
  | cons s rest ih =>
    intro acc
    rw [List.foldl_cons, ih (mergeStep acc s)]
    by_cases hq : (decide (s.type = tk ∧ s.name = tn)) = true
    · have hs : s.type = tk ∧ s.name = tn := by simpa using hq
      by_cases hacc : acc.filter (fun x => decide (x.type = tk ∧ x.name = tn)) = []
      · have hany : acc.any (fun t => decide (t.type = s.type ∧ t.name = s.name)) = false := by
          rw [List.any_eq_false]
          intro t ht
          have hnt := List.filter_eq_nil_iff.mp hacc t ht
          simp only [decide_eq_true_eq] at hnt ⊢
          rw [hs.1, hs.2]
          exact hnt
        have hstep : mergeStep acc s = acc ++ [s] := by
          unfold mergeStep
          rw [hany]
          simp
        rw [hstep, List.filter_append, hacc, List.filter_cons, if_pos hq,
          List.filter_cons, if_pos hq]
        simp [hacc]
      · have hany : acc.any (fun t => decide (t.type = s.type ∧ t.name = s.name)) = true := by
          obtain ⟨t, ht⟩ : ∃ t, t ∈ acc.filter (fun x => decide (x.type = tk ∧ x.name = tn)) := by
            cases hf : acc.filter (fun x => decide (x.type = tk ∧ x.name = tn)) with
            | nil => exact absurd hf hacc
            | cons a l => exact ⟨a, by simp [hf]⟩
          have htm := List.mem_filter.mp ht
          rw [List.any_eq_true]
          refine ⟨t, htm.1, ?_⟩
          have h2 := htm.2
          simp only [decide_eq_true_eq] at h2 ⊢
          rw [hs.1, hs.2]
          exact h2
        have hstep : mergeStep acc s = acc := by
          unfold mergeStep
          rw [hany]
          simp
        rw [hstep, if_neg hacc, if_neg hacc]
    · have hfs : (s :: rest).filter (fun x => decide (x.type = tk ∧ x.name = tn)) =
          rest.filter (fun x => decide (x.type = tk ∧ x.name = tn)) := by
        rw [List.filter_cons, if_neg hq]
      have hfilter_step : (mergeStep acc s).filter (fun x => decide (x.type = tk ∧ x.name = tn)) =
          acc.filter (fun x => decide (x.type = tk ∧ x.name = tn)) := by
        unfold mergeStep
        by_cases hany : acc.any (fun t => decide (t.type = s.type ∧ t.name = s.name)) = true
        · rw [if_pos hany]
        · rw [if_neg hany, List.filter_append]
          have hsingle : List.filter (fun x => decide (x.type = tk ∧ x.name = tn)) [s] = [] := by
            rw [List.filter_cons, if_neg hq]
            rfl
          rw [hsingle, List.append_nil]
      rw [hfilter_step, hfs]

theorem mergeStep_sublist :
    ∀ (syms acc : List Symbol), ∃ l', syms.foldl mergeStep acc = acc ++ l' ∧ l'.Sublist syms := by
  intro syms
  induction syms with
  | nil =>
    intro acc
    exact ⟨[], by simp, by simp⟩
  | cons s rest ih =>
    intro acc
    rw [List.foldl_cons]
    by_cases hany : acc.any (fun t => decide (t.type = s.type ∧ t.name = s.name)) = true
    · have hstep : mergeStep acc s = acc := by
        unfold mergeStep
        rw [hany]
        simp
      obtain ⟨l', h1, h2⟩ := ih acc
      exact ⟨l', by rw [hstep, h1], h2.cons s⟩
    · have hstep : mergeStep acc s = acc ++ [s] := by
        unfold mergeStep
        rw [Bool.eq_false_iff.mpr hany]
        simp
      obtain ⟨l', h1, h2⟩ := ih (acc ++ [s])
      refine ⟨s :: l', ?_, h2.cons₂ s⟩
      rw [hstep, h1, List.append_assoc]
      rfl

/-- C4 (confirmed): the cross-unit merge over the concatenated symbol
sequences, keyed by `(kind, qualified name)`, keeps exactly the
first-registered symbol for every key — the filtered merged table for any
key equals the first occurrence in processing order, later same-key
symbols are silently discarded, and the merge output is a subsequence of
its input (no attribute merging, no modification). -/
theorem c4_merge_first_wins :
    ∀ (symbols : List Symbol) (tk tn : String),
      (mergeSymbols symbols).filter (fun s => decide (s.type = tk ∧ s.name = tn)) =
        (symbols.filter (fun s => decide (s.type = tk ∧ s.name = tn))).take 1
      ∧ (mergeSymbols symbols).Sublist symbols := by
  intro symbols tk tn
  constructor
  · unfold mergeSymbols
    rw [mergeStep_filter_key tk tn symbols []]
    simp
  · unfold mergeSymbols
    obtain ⟨l', h1, h2⟩ := mergeStep_sublist symbols []
    rw [h1]
    simpa using h2

/-! ## Claim C5: parse failure handling -/

theorem scan_foldl_eq_flat {α : Type} (extract : α → List Symbol) :
    ∀ (units : List (Option α)) (acc : List Symbol),
      units.foldl (fun all_symbols u => all_symbols ++ extract_symbols_from_file u extract) acc =
        acc ++ units.flatMap (fun u => extract_symbols_from_file u extract) := by
  intro units
  induction units with
  | nil =>
    intro acc
    simp
  | cons u rest ih =>
    intro acc
    rw [List.foldl_cons, ih, List.flatMap_cons, List.append_assoc]

/-- C5 (confirmed): a unit whose parse raises contributes the empty symbol
sequence (`extract_symbols_from_file` returns `[]` from the `except`
branch), and the directory scan over all units equals the scan restricted
to the successfully parsed units — a parse failure is never fatal and
never yields partial symbols. -/
theorem c5_parse_failure_skipped :
    ∀ (α : Type) (extract : α → List Symbol) (units : List (Option α)),
      extract_symbols_from_file (none : Option α) extract = []
      ∧ scan_directory units extract = scan_directory (units.filter Option.isSome) extract := by
  intro α extract units
  refine ⟨rfl, ?_⟩
  unfold scan_directory
  rw [scan_foldl_eq_flat extract units [], scan_foldl_eq_flat extract _ []]
  simp only [List.nil_append]
  induction units with
  | nil => rfl
  | cons u rest ih =>
    cases u with
    | none =>
      have hf : List.filter Option.isSome (none :: rest) = List.filter Option.isSome rest := by
        rw [List.filter_cons]
        simp
      rw [hf, List.flatMap_cons,
        show extract_symbols_from_file (none : Option α) extract = [] from rfl,
        List.nil_append, ih]
    | some tu =>
      have hf : List.filter Option.isSome (some tu :: rest) =
          some tu :: List.filter Option.isSome rest := by
        rw [List.filter_cons]
        simp
      rw [hf, List.flatMap_cons, List.flatMap_cons, ih]

/-! ## Claim C6: lexical window -/

/-- C6 (confirmed): for any declared line `L ≥ 1`, the primary window
`lines[L-1 : L+10]` is exactly the lines with one-based numbers `L`
through `min (L+10) N` for a file of `N` lines — element `i` of the
window is line `L + i` whenever `L - 1 + i < min (L+10) N` and nothing
otherwise, the window holds at most eleven lines, and its length is
exactly `min (L+10) N - (L-1)`; the extraction is total (Python slicing
never reads past the end). -/
theorem c6_lexical_window :
    ∀ (lines : List String) (L : Nat), 1 ≤ L →
      (∀ i : Nat, (snippet_lines lines L)[i]? =
        if L - 1 + i < min (L + 10) lines.length then lines[L - 1 + i]? else none)
      ∧ (snippet_lines lines L).length ≤ 11
      ∧ (snippet_lines lines L).length = min (L + 10) lines.length - (L - 1) := by
  intro lines L hL
  have h11 : L + 10 - (L - 1) = 11 := by omega
  refine ⟨?_, ?_, ?_⟩
  · intro i
    unfold snippet_lines
    rw [h11, List.getElem?_take]
    by_cases hi : i < 11
    · rw [if_pos hi, List.getElem?_drop]
      by_cases hN : L - 1 + i < lines.length
      · rw [if_pos (by omega)]
      · rw [if_neg (by omega)]
        exact List.getElem?_eq_none (by omega)
    · rw [if_neg hi, if_neg (by omega)]
  · unfold snippet_lines
    rw [h11, List.length_take]
    omega
  · unfold snippet_lines
    rw [h11, List.length_take, List.length_drop]
    omega

/-- C6 witness: the window property applied to a three-line file with a
declaration at line 2. -/
theorem c6_lexical_window_witness :
    (snippet_lines ["a", "b", "c"] 2)[0]? =
      (if 2 - 1 + 0 < min (2 + 10) (["a", "b", "c"] : List String).length
       then (["a", "b", "c"] : List String)[2 - 1 + 0]? else none)
    ∧ (snippet_lines ["a", "b", "c"] 2).length ≤ 11
    ∧ (snippet_lines ["a", "b", "c"] 2).length =
        min (2 + 10) (["a", "b", "c"] : List String).length - (2 - 1) :=
  ⟨(c6_lexical_window ["a", "b", "c"] 2 (by decide)).1 0,
   (c6_lexical_window ["a", "b", "c"] 2 (by decide)).2.1,
   (c6_lexical_window ["a", "b", "c"] 2 (by decide)).2.2⟩

/-! ## Claims C9 and C10: lexical mode -/

theorem lexStep_foldl (path : String) :
    ∀ (cs : List Cursor) (st : List (String × CacheEntry) × List String),
      cs.foldl (lexStep path) st =
        (pyDictBy (fun p : String × Cursor => p.2.spelling)
            (fun p : String × Cursor => entryOf p.1 p.2) st.1
            ((cs.filter lexQualifies).map (fun c => (path, c))),
         st.2 ++ (cs.filter lexQualifies).map (fun c => c.spelling)) := by
  intro cs
  induction cs with
  | nil =>
    intro st
    simp [pyDictBy]
  | cons c rest ih =>
    intro st
    rw [List.foldl_cons]
    by_cases hq : lexQualifies c = true
    · have hstep : lexStep path st c =
          (dictInsert st.1 c.spelling (entryOf path c), st.2 ++ [c.spelling]) := by
        unfold lexStep
        rw [if_pos hq]
      rw [hstep, ih, List.filter_cons, if_pos hq, List.map_cons, List.map_cons,
        pyDictBy_cons, List.append_assoc]
      rfl
    · have hstep : lexStep path st c = st := by
        unfold lexStep
        rw [if_neg hq]
      rw [hstep, ih, List.filter_cons, if_neg hq]

theorem lexFileStep_foldl :
    ∀ (files : List LexFile) (st : List (String × CacheEntry) × List String),
      files.foldl lexFileStep st =
        (pyDictBy (fun p : String × Cursor => p.2.spelling)
            (fun p : String × Cursor => entryOf p.1 p.2) st.1 (qualStream files),
         st.2 ++ (qualStream files).map (fun p => p.2.spelling)) := by
  intro files
  induction files with
  | nil =>
    intro st
    simp [qualStream, pyDictBy]
  | cons f rest ih =>
    intro st
    rw [List.foldl_cons,
      show lexFileStep st f = f.cursors.foldl (lexStep f.path) st from rfl,
      lexStep_foldl f.path f.cursors st, ih]
    unfold qualStream
    rw [List.flatMap_cons, pyDictBy_append, List.map_append, List.append_assoc]
    have hmm : ((f.cursors.filter lexQualifies).map (fun c => (f.path, c))).map
        (fun p : String × Cursor => p.2.spelling) =
        (f.cursors.filter lexQualifies).map (fun c => c.spelling) := by
      rw [List.map_map]
      rfl
    rw [hmm]

theorem extract_symbols_eq (cache0 : List (String × CacheEntry)) (files : List LexFile) :
    extract_symbols cache0 files =
      (pyDictBy (fun p : String × Cursor => p.2.spelling)
          (fun p : String × Cursor => entryOf p.1 p.2) cache0 (qualStream files),
       (qualStream files).map (fun p => p.2.spelling)) := by
  unfold extract_symbols
  rw [lexFileStep_foldl files (cache0, [])]
  rfl

theorem qualStream_qualifies {files : List LexFile} {x : String × Cursor}
    (hx : x ∈ qualStream files) : lexQualifies x.2 = true := by
  unfold qualStream at hx
  obtain ⟨f, _, hxf⟩ := List.mem_flatMap.mp hx
  obtain ⟨c, hc, he⟩ := List.mem_map.mp hxf
  have hq := (List.mem_filter.mp hc).2
  rw [← he]
  exact hq

theorem spelling_not_std {c : Cursor} (h : lexQualifies c = true) :
    c.spelling ∉ std_types := by
  unfold lexQualifies at h
  simp only [Bool.and_eq_true] at h
  have h2 := h.2
  simp only [Bool.and_eq_true, decide_eq_true_eq] at h2
  exact h2.2

/-- C9 (confirmed): `extract_symbols` filters out every cursor whose
spelling is one of the fixed-width standard type names in `std_types`, so
neither the symbol cache nor the returned symbol list ever acquires such a
name — an invariant as long as the cache did not already hold one. -/
theorem c9_std_types_excluded :
    ∀ (cache0 : List (String × CacheEntry)) (files : List LexFile),
      (∀ p ∈ cache0, p.1 ∉ std_types) →
      (∀ p ∈ (extract_symbols cache0 files).1, p.1 ∉ std_types)
      ∧ ∀ n ∈ (extract_symbols cache0 files).2, n ∉ std_types := by
  intro cache0 files h0
  rw [extract_symbols_eq]
  constructor
  · intro p hp
    rcases mem_pyDictBy hp with ⟨x, hx, he⟩ | h2
    · have hq := qualStream_qualifies hx
      rw [he]
      exact spelling_not_std hq
    · exact h0 p h2
  · intro n hn
    obtain ⟨x, hx, he⟩ := List.mem_map.mp hn
    have hq := qualStream_qualifies hx
    rw [← he]
    exact spelling_not_std hq

/-- C9 witness: scanning a user file that declares `size_t` (and a user
type) yields a symbol list without `size_t`. -/
theorem c9_std_types_excluded_witness :
    "size_t" ∉ (extract_symbols [] w9Files).2 := by
  intro hmem
  exact (c9_std_types_excluded [] w9Files (by simp)).2 "size_t" hmem (by decide)

/-- C10 (confirmed): the lexical mode's returned symbol list holds one
entry per qualifying cursor occurrence in processing order — duplicates
included — while the cache entry for a name is the one recorded at the
LAST qualifying occurrence of that spelling (later occurrences overwrite
earlier ones, falling back to the pre-existing cache when the name never
occurs); the opposite tie-break of the graph mode's first-occurrence-wins
merge. -/
theorem c10_lexical_last_wins :
    ∀ (cache0 : List (String × CacheEntry)) (files : List LexFile),
      (extract_symbols cache0 files).2 = (qualStream files).map (fun p => p.2.spelling)
      ∧ ∀ n : String,
          lookupD (extract_symbols cache0 files).1 n =
            (Option.map (fun p : String × Cursor => entryOf p.1 p.2)
              ((qualStream files).filter
                (fun p => decide (p.2.spelling = n))).getLast?).or
              (lookupD cache0 n) := by
  intro cache0 files
  rw [extract_symbols_eq]
  exact ⟨rfl, fun n => lookupD_pyDictBy _ _ (qualStream files) cache0 n⟩

end HDocs
